import Mathlib

/-!
Shallow embedding of `wbf` (src/main.rs), a directory scanner that walks a
tree, filters entries, aggregates path → size with a running total, and
renders / exports a size-descending table.

The OS interactions (directory iteration, symlink resolution, metadata
reads) are external collaborators: a walker run is modelled as the finite
list of results it yields, each either an error (`none`, the `Err` arm of
`if let Ok(entry)`) or a `DirEntry` carrying exactly the observations the
code makes of it: `entry.depth()`, `entry.file_type().is_dir()`,
`entry.path()`, `entry.path_is_symlink()`, the outcome of
`fs::read_link(entry.path())`, and the outcome of `entry.metadata()`
(which, with `follow_links` enabled, is the link target's metadata).
A filesystem path is observed by the code only through `Path::to_str`,
so it is modelled by that observation: `some s` when the path is valid
UTF-8, `none` otherwise.  A compiled regex is observed only through
`Regex::is_match`, so it is modelled as a `String → Bool` matcher.
Machine integers: sizes are `u64`, modelled as `Nat` (the code only adds
sizes; a u64 overflow of `total` is unreachable for real file sizes and is
not modelled).  `f64` formatting in the Formatter is modelled by exact
rational arithmetic, with the IEEE-754 special cases of division by zero
(`0.0/0.0 = NaN`, `x/0.0 = +inf`) made explicit.
-/

namespace Wbf

/-- A filesystem path as the code observes it: `Path::to_str` yields
`some s` when the path is valid UTF-8 text and `none` otherwise. -/
structure RawPath where
  text : Option String
deriving DecidableEq, Repr

/-- One `Ok` item yielded by the walkdir iterator, carrying every
observation `main` makes of a `walkdir::DirEntry`:
`depth` is `entry.depth()` (root = 0); `isDir` is
`entry.file_type().is_dir()`; `path` is `entry.path()`;
`isSymlink` is `entry.path_is_symlink()`; `readLink` is the result of
`fs::read_link(entry.path())` (`some target` on `Ok`, `none` on `Err`);
`metadata` is the result of `entry.metadata()` (`some len` on `Ok`,
`none` on `Err`) — with `follow_links` enabled this is the resolution
target's metadata when the entry is a symlink. -/
structure DirEntry where
  depth : Nat
  isDir : Bool
  path : RawPath
  isSymlink : Bool
  readLink : Option RawPath
  metadata : Option Nat
deriving DecidableEq, Repr

/-- The command-line options the scan loop reads (`Opt` in main.rs):
`depth` is `--depth` and `minSize` is `--min-size`; the remaining
options (path, filter, symlink flag, output file) enter the model
elsewhere (walker input list, filter matcher, export step). -/
structure Options where
  depth : Option Nat
  minSize : Option Nat
deriving DecidableEq, Repr

/-- The `filter_entry` closure: with a compiled regex present, a candidate
is kept iff its path converts to text and the regex does not match that
text; with no regex configured every candidate is kept. -/
def filterEntry (regexOpt : Option (String → Bool)) (p : RawPath) : Bool :=
  match regexOpt with
  | some regex =>
    match p.text with
    | some path => !(regex path)
    | none => false
  | none => true

/-- Symlink resolution in the loop body: when `entry.path_is_symlink()`,
`realpath` becomes the `fs::read_link` target if that call succeeded,
otherwise it stays `entry.path()`; a non-symlink keeps its own path. -/
def resolvePath (e : DirEntry) : RawPath :=
  if e.isSymlink then
    match e.readLink with
    | some target => target
    | none => e.path
  else e.path

/-- `HashMap::insert` keyed by path: last write wins.  Modelled on an
association list by prepending the new binding and dropping any old
binding for the same key (the map is unordered; only its key→value
graph is observable downstream, via iteration, sum and sort). -/
def hmInsert (m : List (String × Nat)) (k : String) (v : Nat) :
    List (String × Nat) :=
  (k, v) :: m.filter (fun p => p.1 ≠ k)

/-- The mutable aggregation state of the scan loop: `let mut total = 0`
and `let mut entries = HashMap::new()`. -/
structure AggState where
  total : Nat
  entries : List (String × Nat)
deriving DecidableEq, Repr

/-- The state at loop entry: zero total, empty map. -/
def initState : AggState := ⟨0, []⟩

/-- Sum of the sizes currently recorded in the mapping. -/
def sizesSum (m : List (String × Nat)) : Nat :=
  (m.map (fun p => p.2)).sum

/-- The break condition at the top of the loop body:
`if let Some(depth) = opt.depth { if depth > 0 && entry.depth() > depth
{ break; } }`. -/
def tooDeep (opt : Options) (e : DirEntry) : Bool :=
  match opt.depth with
  | some d => decide (0 < d) && decide (d < e.depth)
  | none => false

/-- The body of the scan loop after the depth check, as a state
transformer: skip directories; resolve symlinks; require the resolved
path to be valid text and the metadata read to succeed; skip entries
below `--min-size` (default 0); otherwise add the size to the total and
insert path → size. -/
def processEntry (opt : Options) (st : AggState) (e : DirEntry) : AggState :=
  if e.isDir then st
  else
    match (resolvePath e).text, e.metadata with
    | some path, some size =>
      if size < opt.minSize.getD 0 then st
      else ⟨st.total + size, hmInsert st.entries path size⟩
    | some _, none => st
    | none, _ => st

/-- The key/size pair `processEntry` would insert, if any: `none` exactly
when the entry is skipped (directory, unrepresentable path, failed
metadata read, or below the minimum size). -/
def accepted (opt : Options) (e : DirEntry) : Option (String × Nat) :=
  if e.isDir then none
  else
    match (resolvePath e).text, e.metadata with
    | some path, some size =>
      if size < opt.minSize.getD 0 then none else some (path, size)
    | some _, none => none
    | none, _ => none

/-- The scan loop over the walker's yielded results: an `Err` item
(`none`) is skipped; an `Ok` item first hits the depth check, which
breaks out of the whole loop, and is otherwise processed. -/
def scanLoop (opt : Options) (st : AggState) :
    List (Option DirEntry) → AggState
  | [] => st
  | none :: rest => scanLoop opt st rest
  | some e :: rest =>
    if tooDeep opt e then st
    else scanLoop opt (processEntry opt st e) rest

/-- The same loop with the depth break removed: every yielded `Ok` entry
is processed.  Used to state that a depth of 0 or an unset depth means
unlimited traversal. -/
def scanAll (opt : Options) (st : AggState) :
    List (Option DirEntry) → AggState
  | [] => st
  | none :: rest => scanAll opt st rest
  | some e :: rest => scanAll opt (processEntry opt st e) rest

/-- The keys of the insertions the loop performs on a given walker run,
in order, honouring the depth break. -/
def acceptedKeys (opt : Options) : List (Option DirEntry) → List String
  | [] => []
  | none :: rest => acceptedKeys opt rest
  | some e :: rest =>
    if tooDeep opt e then []
    else
      (match accepted opt e with
       | some kv => [kv.1]
       | none => []) ++ acceptedKeys opt rest

/-! ## Formatter

The code renders numbers with Rust's `format!("{:.*}", 2, x)` on `f64`
values obtained by dividing integer byte counts.  Such a quotient is the
exact fraction `num / den`; it is modelled here by that fraction (kept
as a numerator/divisor pair of naturals) rounded to the nearest
hundredth.  Rust's formatting rounds the `f64` nearest to the fraction,
so the two agree on every value with no tie at the third decimal — in
particular on every exactly representable quotient. -/

/-- The hundredths count printed when `num / den` (with `den > 0`) is
rendered to two decimal places: the nearest integer to `100·num/den`,
i.e. `⌊100·num/den + 1/2⌋ = (200·num + den) / (2·den)`. -/
def round2 (num den : Nat) : Nat := (200 * num + den) / (2 * den)

/-- Render the fraction `num / den` with exactly two decimal digits, as
Rust's `format!("{:.*}", 2, x)` does for a finite non-negative value:
integer part, a dot, then the zero-padded two-digit hundredths. -/
def formatFixed2 (num den : Nat) : String :=
  let n := round2 num den
  toString (n / 100) ++ "." ++
    (if n % 100 < 10 then "0" ++ toString (n % 100) else toString (n % 100))

/-- The percentage cell:
`format!("{:.*}%", 2, (size as f64 / total as f64) * 100_f64)`.
When `total = 0`, IEEE-754 `f64` division yields `NaN` (for `0.0/0.0`)
or `+inf` (for positive over zero); Rust formats those as `"NaN"` and
`"inf"` regardless of the precision spec, and no panic or error occurs.
Otherwise the value is the fraction `(part·100) / total` rendered to two
decimals. -/
def percentage (part total : Nat) : String :=
  if total = 0 then
    (if part = 0 then "NaN" else "inf") ++ "%"
  else
    formatFixed2 (part * 100) total ++ "%"

/-- The decimal magnitude prefixes of the `number_prefix` crate, in
ascending order of magnitude (kilo through yotta). -/
def unitPrefixes : List String := ["k", "M", "G", "T", "P", "E", "Z", "Y"]

/-- The scaling loop of `NumberPrefix::decimal` for an amount already
known to be ≥ 1000: divide by 1000 once per magnitude step, stopping at
the first quotient below 1000 (or at the last available step).  The
running quotient `bytes / divisor` is kept as the pair of its numerator
`bytes` and the accumulated `divisor`; the comparison
`bytes / divisor < 1000` is the exact `bytes < divisor * 1000`.
Returns the final divisor together with the chosen prefix. -/
def humanizeLoop (bytes divisor : Nat) : List String → Nat × String
  | [] => (divisor, "")
  | [p] => (divisor * 1000, p)
  | p :: p' :: ps =>
    let d := divisor * 1000
    if bytes < d * 1000 then (d, p) else humanizeLoop bytes d (p' :: ps)

/-- Human-readable size:
`NumberPrefix::decimal(size as f64)` followed by the two match arms.
A standalone amount (< 1000) prints as `format!("{} B", bytes)` — Rust's
`Display` of an integral `f64` prints it with no decimal point, so this
is the integer byte count and `"B"`.  A prefixed amount prints as
`format!("{:.*} {}B", 2, n, prefix)`: two decimals, a space, the
magnitude prefix, and `"B"`. -/
def humanize (bytes : Nat) : String :=
  if bytes < 1000 then toString bytes ++ " B"
  else
    let r := humanizeLoop bytes 1 unitPrefixes
    formatFixed2 bytes r.1 ++ " " ++ r.2 ++ "B"

/-! ## Presenter / Exporter snapshot ordering

Both the draw closure and the export step collect the map into a vector
and `sort_by` the comparator `b_size.partial_cmp(&a_size)` — descending
by size (`partial_cmp` on `u64` is the total order).  The sort is
modelled by insertion sort with the same descending key; the spec leaves
the order of equal sizes unspecified. -/

/-- The sort key: row `a` precedes row `b` when `a`'s size is at least
`b`'s — the comparator `b_size.partial_cmp(&a_size)` on `u64`. -/
def sizeDesc (a b : String × Nat) : Prop := b.2 ≤ a.2

instance : DecidableRel sizeDesc := fun a b => Nat.decLe b.2 a.2

instance : IsTotal (String × Nat) sizeDesc := ⟨fun a b => Nat.le_total b.2 a.2⟩

instance : IsTrans (String × Nat) sizeDesc := ⟨fun _ _ _ hab hbc => Nat.le_trans hbc hab⟩

/-- The sorted snapshot: the aggregation mapping ordered descending by
size, as built by `sorted_entries.sort_by(...)` in both the draw closure
and the export step (a sort by the total descending-size comparator;
the order of equal sizes is left unspecified by the spec). -/
def sortDesc (m : List (String × Nat)) : List (String × Nat) :=
  m.insertionSort sizeDesc

/-- One rendered row, `[path, human-readable size, percentage string]`,
as produced for both the table and the CSV record. -/
def renderRow (total : Nat) (p : String × Nat) : String × String × String :=
  (p.1, humanize p.2, percentage p.2 total)

/-- The full rendered row list over a state: the final export (and any
drawn frame) is this applied to the state at that point. -/
def renderRows (st : AggState) : List (String × String × String) :=
  (sortDesc st.entries).map (renderRow st.total)

/-! ## Basic lemmas about the loop body -/

/-- The loop body inserts exactly the pair computed by `accepted`, adding
its size to the total, and otherwise leaves the state untouched. -/
theorem processEntry_eq (opt : Options) (st : AggState) (e : DirEntry) :
    processEntry opt st e =
      match accepted opt e with
      | some kv => ⟨st.total + kv.2, hmInsert st.entries kv.1 kv.2⟩
      | none => st := by
  unfold processEntry accepted
  cases hd : e.isDir
  · cases ht : (resolvePath e).text <;> cases hm : e.metadata
    · exact rfl
    · exact rfl
    · exact rfl
    · simp only [Bool.false_eq_true, if_false]
      split
      · rename_i hlt; simp [hlt]
      · rename_i hlt; simp [hlt]
  · rfl

/-- Membership after a map insertion: the new pair or an old one. -/
theorem mem_hmInsert {m : List (String × Nat)} {k : String} {v : Nat}
    {p : String × Nat} (h : p ∈ hmInsert m k v) : p = (k, v) ∨ p ∈ m := by
  unfold hmInsert at h
  rcases List.mem_cons.1 h with h | h
  · exact Or.inl h
  · exact Or.inr (List.mem_of_mem_filter h)

/-- An insertion grows the mapping sum by at most the inserted size
(less, when an old binding for the same key is dropped). -/
theorem sizesSum_hmInsert_le (m : List (String × Nat)) (k : String) (v : Nat) :
    sizesSum (hmInsert m k v) ≤ v + sizesSum m := by
  unfold hmInsert sizesSum
  simp only [List.map_cons, List.sum_cons]
  have hsub : List.Sublist ((m.filter (fun p => p.1 ≠ k)).map (fun p => p.2))
      (m.map (fun p => p.2)) := (List.filter_sublist m).map _
  have := hsub.sum_le_sum (by intro a _; exact Nat.zero_le a)
  omega

/-- An insertion under a key absent from the map grows the mapping sum
by exactly the inserted size. -/
theorem sizesSum_hmInsert_of_fresh {m : List (String × Nat)} {k : String} (v : Nat)
    (h : ∀ p ∈ m, p.1 ≠ k) : sizesSum (hmInsert m k v) = v + sizesSum m := by
  unfold hmInsert sizesSum
  have heq : m.filter (fun p => p.1 ≠ k) = m := List.filter_eq_self.2 (by simpa using h)
  rw [heq]
  simp

/-- An accepted entry's size meets the configured minimum (default 0). -/
theorem accepted_minSize {opt : Options} {e : DirEntry} {kv : String × Nat}
    (h : accepted opt e = some kv) : opt.minSize.getD 0 ≤ kv.2 := by
  unfold accepted at h
  cases hd : e.isDir <;> rw [hd] at h
  · cases ht : (resolvePath e).text <;> cases hm : e.metadata <;> rw [ht, hm] at h
    · exact absurd h (by simp)
    · exact absurd h (by simp)
    · exact absurd h (by simp)
    · rename_i path size
      simp only [Bool.false_eq_true, if_false] at h
      by_cases hlt : size < opt.minSize.getD 0
      · simp [hlt] at h
      · simp [hlt] at h
        rw [← h]
        exact Nat.le_of_not_lt hlt
  · exact absurd h (by simp)

/-- Provenance of a mapping entry across one loop iteration: it was
already present, or it is exactly the pair the iteration accepted. -/
theorem mem_processEntry {opt : Options} {st : AggState} {e : DirEntry}
    {p : String × Nat} (h : p ∈ (processEntry opt st e).entries) :
    p ∈ st.entries ∨ accepted opt e = some p := by
  rw [processEntry_eq] at h
  cases hacc : accepted opt e <;> rw [hacc] at h
  · exact Or.inl h
  · rcases mem_hmInsert h with h | h
    · right
      rw [h]
    · exact Or.inl h

/-- One loop iteration never decreases the running total. -/
theorem total_le_processEntry (opt : Options) (st : AggState) (e : DirEntry) :
    st.total ≤ (processEntry opt st e).total := by
  rw [processEntry_eq]
  cases accepted opt e <;> simp

/-- One loop iteration leaves the total unchanged or adds exactly the
accepted size (`total += size` is the only write). -/
theorem processEntry_total (opt : Options) (st : AggState) (e : DirEntry) :
    (processEntry opt st e).total = st.total ∨
      ∃ kv, accepted opt e = some kv ∧
        (processEntry opt st e).total = st.total + kv.2 := by
  rw [processEntry_eq]
  cases hacc : accepted opt e
  · exact Or.inl rfl
  · rename_i kv; exact Or.inr ⟨kv, rfl, rfl⟩

/-- Provenance of a mapping entry across a whole run: it was present at
the start, or some yielded entry that survived the depth check was
accepted as exactly this pair. -/
theorem mem_scanLoop_entries {opt : Options} :
    ∀ {l : List (Option DirEntry)} {st : AggState} {p : String × Nat},
      p ∈ (scanLoop opt st l).entries →
      p ∈ st.entries ∨
        ∃ e, some e ∈ l ∧ tooDeep opt e = false ∧ accepted opt e = some p := by
  intro l
  induction l with
  | nil => intro st p h; exact Or.inl h
  | cons oe rest ih =>
    intro st p h
    cases oe with
    | none =>
      rw [scanLoop] at h
      rcases ih h with h | ⟨e, he, hd, ha⟩
      · exact Or.inl h
      · exact Or.inr ⟨e, List.mem_cons_of_mem _ he, hd, ha⟩
    | some e =>
      rw [scanLoop] at h
      by_cases htd : tooDeep opt e
      · rw [if_pos htd] at h; exact Or.inl h
      · rw [if_neg htd] at h
        rcases ih h with h | ⟨e', he', hd', ha'⟩
        · rcases mem_processEntry h with h | h
          · exact Or.inl h
          · exact Or.inr ⟨e, List.mem_cons_self _ _, Bool.not_eq_true _ ▸ (by simpa using htd), h⟩
        · exact Or.inr ⟨e', List.mem_cons_of_mem _ he', hd', ha'⟩

/-- The running total never decreases across a run. -/
theorem total_le_scanLoop (opt : Options) :
    ∀ (l : List (Option DirEntry)) (st : AggState),
      st.total ≤ (scanLoop opt st l).total := by
  intro l
  induction l with
  | nil => intro st; exact Nat.le_refl _
  | cons oe rest ih =>
    intro st
    cases oe with
    | none => rw [scanLoop]; exact ih st
    | some e =>
      rw [scanLoop]
      by_cases htd : tooDeep opt e
      · rw [if_pos htd]
      · rw [if_neg htd]
        exact Nat.le_trans (total_le_processEntry opt st e) (ih _)

/-- With `--depth` unset or 0 the break condition never fires. -/
theorem tooDeep_eq_false_of_unlimited {opt : Options}
    (h : opt.depth = none ∨ opt.depth = some 0) (e : DirEntry) :
    tooDeep opt e = false := by
  unfold tooDeep
  rcases h with h | h
  · rw [h]
  · rw [h]; simp

/-- An entry that survives the depth check under a positive limit is
within the limit. -/
theorem depth_le_of_not_tooDeep {opt : Options} {e : DirEntry} {d : Nat}
    (hd : opt.depth = some d) (hpos : 0 < d) (h : tooDeep opt e = false) :
    e.depth ≤ d := by
  unfold tooDeep at h
  rw [hd] at h
  simp at h
  omega

/-- With `--depth` unset or 0 the loop processes the whole walk: the
break never triggers, so the run equals the break-free fold. -/
theorem scanLoop_eq_scanAll {opt : Options}
    (h : opt.depth = none ∨ opt.depth = some 0) :
    ∀ (l : List (Option DirEntry)) (st : AggState),
      scanLoop opt st l = scanAll opt st l := by
  intro l
  induction l with
  | nil => intro st; rfl
  | cons oe rest ih =>
    intro st
    cases oe with
    | none => rw [scanLoop, scanAll]; exact ih st
    | some e =>
      rw [scanLoop, scanAll, tooDeep_eq_false_of_unlimited h e]
      simp only [Bool.false_eq_true, if_false]
      exact ih _

/-- The mapping sum never exceeds the running total: each accepted entry
adds its full size to the total but at most that much to the sum. -/
theorem scan_sum_le {opt : Options} :
    ∀ (l : List (Option DirEntry)) (st : AggState),
      sizesSum st.entries ≤ st.total →
      sizesSum (scanLoop opt st l).entries ≤ (scanLoop opt st l).total := by
  intro l
  induction l with
  | nil => intro st h; exact h
  | cons oe rest ih =>
    intro st h
    cases oe with
    | none => rw [scanLoop]; exact ih st h
    | some e =>
      rw [scanLoop]
      by_cases htd : tooDeep opt e
      · rw [if_pos htd]; exact h
      · rw [if_neg htd]
        refine ih _ ?_
        rw [processEntry_eq]
        cases hacc : accepted opt e
        · exact h
        · rename_i kv
          have := sizesSum_hmInsert_le st.entries kv.1 kv.2
          simp only []
          omega

/-- When the keys inserted during the run are pairwise distinct and also
absent from the starting map, the mapping sum equals the running total
throughout. -/
theorem scan_sum_eq {opt : Options} :
    ∀ (l : List (Option DirEntry)) (st : AggState),
      sizesSum st.entries = st.total →
      (acceptedKeys opt l).Nodup →
      (∀ k ∈ acceptedKeys opt l, ∀ p ∈ st.entries, p.1 ≠ k) →
      sizesSum (scanLoop opt st l).entries = (scanLoop opt st l).total := by
  intro l
  induction l with
  | nil => intro st h _ _; exact h
  | cons oe rest ih =>
    intro st h hnd hfst
    cases oe with
    | none =>
      rw [scanLoop]
      rw [acceptedKeys] at hnd hfst
      exact ih st h hnd hfst
    | some e =>
      rw [scanLoop]
      rw [acceptedKeys] at hnd hfst
      by_cases htd : tooDeep opt e
      · rw [if_pos htd]; exact h
      · rw [if_neg htd]
        rw [if_neg htd] at hnd hfst
        cases hacc : accepted opt e with
        | none =>
          rw [hacc] at hnd hfst
          simp only [List.nil_append] at hnd hfst
          have hpe : processEntry opt st e = st := by
            rw [processEntry_eq, hacc]
          rw [hpe]
          exact ih st h hnd hfst
        | some kv =>
          rw [hacc] at hnd hfst
          simp only [List.cons_append, List.nodup_cons] at hnd
          have hpe : processEntry opt st e =
              ⟨st.total + kv.2, hmInsert st.entries kv.1 kv.2⟩ := by
            rw [processEntry_eq, hacc]
          rw [hpe]
          refine ih _ ?_ hnd.2 ?_
          · have hfresh : ∀ p ∈ st.entries, p.1 ≠ kv.1 := by
              intro p hp
              exact hfst kv.1 (List.mem_cons_self _ _) p hp
            have := sizesSum_hmInsert_of_fresh kv.2 hfresh
            simp only []
            omega
          · intro k hk p hp
            rcases mem_hmInsert hp with hpk | hpk
            · rw [hpk]
              intro hcontra
              exact hnd.1 (hcontra ▸ hk)
            · exact hfst k (List.mem_cons_of_mem _ hk) p hpk

/-- The sorted snapshot is non-increasing by size between every pair of
adjacent rows. -/
theorem sortDesc_sorted (m : List (String × Nat)) :
    List.Chain' sizeDesc (sortDesc m) :=
  (List.sorted_insertionSort sizeDesc m).chain'

/-- Sorting changes no membership: the snapshot holds exactly the
mapping's pairs. -/
theorem mem_sortDesc {m : List (String × Nat)} {p : String × Nat} :
    p ∈ sortDesc m ↔ p ∈ m :=
  (List.perm_insertionSort sizeDesc m).mem_iff

/-- The zero-padded hundredths field is always two digit characters. -/
theorem two_digit_shape :
    ∀ m : Nat, m < 100 →
      (if m < 10 then "0" ++ toString m else toString m).length = 2 ∧
      ((if m < 10 then "0" ++ toString m else toString m).toList.all
        Char.isDigit) = true := by
  decide

/-- Every 2-decimal rendering splits as integer part, a dot, and a
two-digit fractional field. -/
theorem formatFixed2_shape (num den : Nat) :
    ∃ s t : String, formatFixed2 num den = s ++ "." ++ t ∧
      t.length = 2 ∧ t.toList.all Char.isDigit = true := by
  refine ⟨toString (round2 num den / 100),
    if round2 num den % 100 < 10 then "0" ++ toString (round2 num den % 100)
      else toString (round2 num den % 100), rfl, ?_, ?_⟩
  · exact (two_digit_shape _ (Nat.mod_lt _ (by norm_num))).1
  · exact (two_digit_shape _ (Nat.mod_lt _ (by norm_num))).2

/-- The magnitude loop picks the i-th prefix together with the divisor
1000^(i+1); the divisor never exceeds the amount, and the quotient is
below 1000 unless the prefixes ran out. -/
theorem humanizeLoop_spec :
    ∀ (ps : List String), ∀ (b d : Nat), ps ≠ [] → 0 < d → d * 1000 ≤ b →
      ∃ i, ∃ h : i < ps.length,
        humanizeLoop b d ps = (d * 1000 ^ (i + 1), ps.get ⟨i, h⟩) ∧
        d * 1000 ^ (i + 1) ≤ b ∧
        (b < d * 1000 ^ (i + 2) ∨ i + 1 = ps.length) := by
  intro ps
  induction ps with
  | nil => intro b d hne _ _; exact absurd rfl hne
  | cons p t ih =>
    intro b d _ hd hle
    cases t with
    | nil =>
      refine ⟨0, by simp, ?_, ?_, Or.inr rfl⟩
      · rw [humanizeLoop]; simp
      · simpa using hle
    | cons p' t' =>
      rw [humanizeLoop]
      by_cases hlt : b < d * 1000 * 1000
      · refine ⟨0, by simp, ?_, ?_, Or.inl ?_⟩
        · simp [hlt]
        · simpa using hle
        · have : d * 1000 ^ (0 + 2) = d * 1000 * 1000 := by ring
          rw [this]
          exact hlt
      · simp only [hlt, if_false]
        have hle' : d * 1000 * 1000 ≤ b := Nat.le_of_not_lt hlt
        obtain ⟨i, hi, heq, hlb, hub⟩ :=
          ih b (d * 1000) (by simp) (by positivity) hle'
        refine ⟨i + 1, by simpa using Nat.succ_lt_succ hi, ?_, ?_, ?_⟩
        · rw [heq]
          have : d * 1000 * 1000 ^ (i + 1) = d * 1000 ^ (i + 1 + 1) := by ring
          rw [this]
          rfl
        · have h2 : d * 1000 ^ (i + 1 + 1) = d * 1000 * 1000 ^ (i + 1) := by ring
          rw [h2]
          exact hlb
        · rcases hub with hub | hub
          · left
            have : d * 1000 * 1000 ^ (i + 2) = d * 1000 ^ (i + 1 + 2) := by ring
            rw [← this]
            exact hub
          · right
            simp [← hub, List.length_cons]

/-- What acceptance entails: the entry is not a directory, its resolved
path is the recorded key, its metadata read gave the recorded size, and
that size meets the configured minimum. -/
theorem accepted_some_spec {opt : Options} {e : DirEntry} {kv : String × Nat}
    (h : accepted opt e = some kv) :
    e.isDir = false ∧ (resolvePath e).text = some kv.1 ∧
      e.metadata = some kv.2 ∧ opt.minSize.getD 0 ≤ kv.2 := by
  unfold accepted at h
  cases hd : e.isDir <;> rw [hd] at h
  · cases ht : (resolvePath e).text <;> cases hm : e.metadata <;> rw [ht, hm] at h
    · exact absurd h (by simp)
    · exact absurd h (by simp)
    · exact absurd h (by simp)
    · rename_i path size
      simp only [Bool.false_eq_true, if_false] at h
      by_cases hlt : size < opt.minSize.getD 0
      · simp [hlt] at h
      · simp [hlt] at h
        refine ⟨rfl, ?_, ?_, ?_⟩
        · rw [← h]
        · rw [← h]
        · rw [← h]
          exact Nat.le_of_not_lt hlt
  · exact absurd h (by simp)

/-- Faithfulness of the integer rounding: the printed hundredths count
is the exact rational value rounded to the nearest hundredth. -/
theorem round2_eq_floor (num den : Nat) (h : 0 < den) :
    (round2 num den : ℤ) = ⌊(num : ℚ) / (den : ℚ) * 100 + 1 / 2⌋ := by
  have hden : (den : ℚ) ≠ 0 := Nat.cast_ne_zero.2 (Nat.pos_iff_ne_zero.mp h)
  have hrw : (num : ℚ) / (den : ℚ) * 100 + 1 / 2
      = ((200 * num + den : ℕ) : ℚ) / ((2 * den : ℕ) : ℚ) := by
    push_cast
    field_simp
    ring
  rw [hrw, Rat.floor_natCast_div_natCast]
  unfold round2
  norm_cast

/-! ## The claims -/

/-- C1 counterexample: inserting the same resolved path twice (sizes 5
then 7) leaves the mapping sum at 7 while the running total reaches 12,
so the claimed equality of sum and total at every observation point
fails as stated: the total is not adjusted by the delta. -/
theorem claim_C1_counterexample :
    sizesSum (scanLoop ⟨none, none⟩ initState
      [some ⟨1, false, ⟨some "a"⟩, false, none, some 5⟩,
       some ⟨1, false, ⟨some "a"⟩, false, none, some 7⟩]).entries ≠
    (scanLoop ⟨none, none⟩ initState
      [some ⟨1, false, ⟨some "a"⟩, false, none, some 5⟩,
       some ⟨1, false, ⟨some "a"⟩, false, none, some 7⟩]).total := by
  decide

/-- C1 (amended): at every observation point of the scan loop the sum of
the recorded sizes is at most the running total, with equality whenever
the resolved paths inserted so far are pairwise distinct; on a repeated
path the code adds the full new size to the total without any delta
adjustment, so the total drifts above the sum. -/
theorem claim_C1_sum_total (opt : Options) (l : List (Option DirEntry)) :
    sizesSum (scanLoop opt initState l).entries ≤
      (scanLoop opt initState l).total ∧
    ((acceptedKeys opt l).Nodup →
      sizesSum (scanLoop opt initState l).entries =
        (scanLoop opt initState l).total) := by
  constructor
  · exact scan_sum_le l initState (Nat.le_refl 0)
  · intro hnd
    refine scan_sum_eq l initState rfl hnd ?_
    intro k _ p hp
    exact absurd hp (List.not_mem_nil p)

/-- C1 witness: on a concrete two-entry run with distinct resolved paths
the mapping sum equals the running total. -/
theorem claim_C1_witness :
    sizesSum (scanLoop ⟨none, none⟩ initState
      [some ⟨1, false, ⟨some "a"⟩, false, none, some 5⟩,
       some ⟨1, false, ⟨some "b"⟩, false, none, some 7⟩]).entries =
    (scanLoop ⟨none, none⟩ initState
      [some ⟨1, false, ⟨some "a"⟩, false, none, some 5⟩,
       some ⟨1, false, ⟨some "b"⟩, false, none, some 7⟩]).total :=
  (claim_C1_sum_total ⟨none, none⟩
    [some ⟨1, false, ⟨some "a"⟩, false, none, some 5⟩,
     some ⟨1, false, ⟨some "b"⟩, false, none, some 7⟩]).2 (by decide)

/-- C3: when a depth limit d > 0 is configured, every aggregated pair
originates from a yielded entry whose depth is at most d, so no entry
beyond the limit is ever aggregated; a depth of 0 or an unset depth
means unlimited traversal (the break never fires, the run equals the
break-free fold). -/
theorem claim_C3_depth :
    (∀ (opt : Options) (l : List (Option DirEntry)) (d : Nat),
      opt.depth = some d → 0 < d →
      ∀ p ∈ (scanLoop opt initState l).entries,
        ∃ e, some e ∈ l ∧ e.depth ≤ d ∧ accepted opt e = some p) ∧
    (∀ (opt : Options) (st : AggState) (l : List (Option DirEntry)),
      opt.depth = none ∨ opt.depth = some 0 →
      scanLoop opt st l = scanAll opt st l) := by
  constructor
  · intro opt l d hd hpos p hp
    rcases mem_scanLoop_entries hp with h | ⟨e, he, htd, ha⟩
    · exact absurd h (List.not_mem_nil p)
    · exact ⟨e, he, depth_le_of_not_tooDeep hd hpos htd, ha⟩
  · intro opt st l h
    exact scanLoop_eq_scanAll h l st

/-- C3 witness: with depth 1 over a run holding a depth-2 entry, the
aggregated pair comes from the depth-1 entry; with depth 0 a run equals
its break-free fold. -/
theorem claim_C3_witness :
    (∃ e, some e ∈ [some (⟨1, false, ⟨some "a"⟩, false, none, some 5⟩ : DirEntry),
        some ⟨2, false, ⟨some "b"⟩, false, none, some 6⟩] ∧
      e.depth ≤ 1 ∧ accepted ⟨some 1, none⟩ e = some ("a", 5)) ∧
    scanLoop ⟨some 0, none⟩ initState
        [some ⟨3, false, ⟨some "c"⟩, false, none, some 9⟩] =
      scanAll ⟨some 0, none⟩ initState
        [some ⟨3, false, ⟨some "c"⟩, false, none, some 9⟩] :=
  ⟨claim_C3_depth.1 ⟨some 1, none⟩
      [some ⟨1, false, ⟨some "a"⟩, false, none, some 5⟩,
       some ⟨2, false, ⟨some "b"⟩, false, none, some 6⟩] 1 rfl (by decide)
      ("a", 5) (by decide),
   claim_C3_depth.2 ⟨some 0, none⟩ initState
      [some ⟨3, false, ⟨some "c"⟩, false, none, some 9⟩] (Or.inr rfl)⟩

/-- C9: a non-directory entry whose resolved path is not representable
as valid text, or whose metadata read failed, leaves the aggregation
state completely unchanged (no insertion, no total change), regardless
of the configured options. -/
theorem claim_C9_skip (opt : Options) (st : AggState) (e : DirEntry)
    (hdir : e.isDir = false)
    (h : (resolvePath e).text = none ∨ e.metadata = none) :
    processEntry opt st e = st := by
  rcases h with h | h
  · cases hm : e.metadata <;> simp [processEntry, hdir, h, hm]
  · cases ht : (resolvePath e).text <;> simp [processEntry, hdir, h, ht]

/-- C9 witness: a concrete entry with a non-UTF-8 path leaves the
initial state unchanged. -/
theorem claim_C9_witness :
    processEntry ⟨none, none⟩ initState ⟨1, false, ⟨none⟩, false, none, some 5⟩ =
      initState :=
  claim_C9_skip ⟨none, none⟩ initState ⟨1, false, ⟨none⟩, false, none, some 5⟩
    rfl (Or.inl rfl)

/-- C10: each loop iteration leaves the running total unchanged or
increases it by exactly the accepted entry size, and over any run the
total never decreases — including when an existing path key is
overwritten. -/
theorem claim_C10_total_monotone :
    (∀ (opt : Options) (st : AggState) (e : DirEntry),
      (processEntry opt st e).total = st.total ∨
      ∃ kv, accepted opt e = some kv ∧
        (processEntry opt st e).total = st.total + kv.2) ∧
    (∀ (opt : Options) (st : AggState) (l : List (Option DirEntry)),
      st.total ≤ (scanLoop opt st l).total) :=
  ⟨fun opt st e => processEntry_total opt st e,
   fun opt st l => total_le_scanLoop opt l st⟩
/-- C4 counterexample: a run of one symlink entry whose own path "link"
passes the filter while its resolution target "target" matches the
pattern ends with the matched path "target" recorded in the final
aggregation, refuting the claim that none of the matched paths appear
there. -/
theorem claim_C4_counterexample :
    filterEntry (some (fun s => s == "target")) ⟨some "link"⟩ = true ∧
    (fun s : String => s == "target") "target" = true ∧
    ("target", 10) ∈ (scanLoop ⟨none, none⟩ initState
      [some ⟨1, false, ⟨some "link"⟩, true, some ⟨some "target"⟩, some 10⟩]).entries := by
  refine ⟨rfl, rfl, ?_⟩
  decide

/-- C4 (amended): with a pattern configured, every candidate whose path
matches or cannot be represented as valid text is excluded by the
filter; with no pattern configured every candidate is included; and on a
symlink-free run whose yielded entries all passed the filter, no matched
path appears in the final aggregation.  (A matched path can still appear
as the resolution target of a non-matching symlink — the
counterexample.) -/
theorem claim_C4_filter :
    (∀ (m : String → Bool) (p : RawPath),
      (p.text = none ∨ ∃ s, p.text = some s ∧ m s = true) →
      filterEntry (some m) p = false) ∧
    (∀ p : RawPath, filterEntry none p = true) ∧
    (∀ (m : String → Bool) (opt : Options) (l : List (Option DirEntry)),
      (∀ e : DirEntry, some e ∈ l → filterEntry (some m) e.path = true) →
      (∀ e : DirEntry, some e ∈ l → e.isSymlink = false) →
      ∀ kv ∈ (scanLoop opt initState l).entries, m kv.1 = false) := by
  refine ⟨?_, ?_, ?_⟩
  · intro m p h
    rcases h with h | ⟨s, hs, hm⟩
    · simp [filterEntry, h]
    · simp [filterEntry, hs, hm]
  · intro p
    rfl
  · intro m opt l hpass hsym kv hkv
    rcases mem_scanLoop_entries hkv with h | ⟨e, he, _, ha⟩
    · exact absurd h (List.not_mem_nil kv)
    · obtain ⟨_, htext, _, _⟩ := accepted_some_spec ha
      have hres : resolvePath e = e.path := by
        simp [resolvePath, hsym e he]
      rw [hres] at htext
      have := hpass e he
      rw [filterEntry, htext] at this
      simpa using this

/-- C4 witness: concrete filter evaluations and a concrete symlink-free
run whose recorded key does not match the pattern. -/
theorem claim_C4_witness :
    filterEntry (some (fun s => s == "x")) ⟨none⟩ = false ∧
    filterEntry (none : Option (String → Bool)) ⟨none⟩ = true ∧
    (fun s : String => s == "x") "a" = false :=
  ⟨claim_C4_filter.1 (fun s => s == "x") ⟨none⟩ (Or.inl rfl),
   claim_C4_filter.2.1 ⟨none⟩,
   claim_C4_filter.2.2 (fun s => s == "x") ⟨none, none⟩
     [some ⟨1, false, ⟨some "a"⟩, false, none, some 5⟩]
     (by intro e he; simp at he; subst he; rfl)
     (by intro e he; simp at he; subst he; rfl)
     ("a", 5) (by decide)⟩

/-- C5: every pair recorded in the final state — hence also in the
sorted snapshot and export order — has size at least the configured
minimum; with min-size absent the minimum defaults to 0, so no entry
(even of size 0) is rejected on size. -/
theorem claim_C5_min_size :
    (∀ (opt : Options) (l : List (Option DirEntry)),
      ∀ kv ∈ (scanLoop opt initState l).entries, opt.minSize.getD 0 ≤ kv.2) ∧
    (∀ (opt : Options) (l : List (Option DirEntry)),
      ∀ kv ∈ sortDesc (scanLoop opt initState l).entries,
        opt.minSize.getD 0 ≤ kv.2) ∧
    (∀ (opt : Options) (e : DirEntry) (k : String) (v : Nat),
      opt.minSize = none → e.isDir = false → (resolvePath e).text = some k →
      e.metadata = some v → accepted opt e = some (k, v)) := by
  have hmain : ∀ (opt : Options) (l : List (Option DirEntry)),
      ∀ kv ∈ (scanLoop opt initState l).entries, opt.minSize.getD 0 ≤ kv.2 := by
    intro opt l kv hkv
    rcases mem_scanLoop_entries hkv with h | ⟨e, _, _, ha⟩
    · exact absurd h (List.not_mem_nil kv)
    · exact (accepted_some_spec ha).2.2.2
  refine ⟨hmain, ?_, ?_⟩
  · intro opt l kv hkv
    exact hmain opt l kv (mem_sortDesc.mp hkv)
  · intro opt e k v hmin hdir htext hmeta
    simp [accepted, hdir, htext, hmeta, hmin]

/-- C5 witness: a concrete run under minimum 3 yields only sizes at
least 3, and with no minimum a size-0 entry is accepted. -/
theorem claim_C5_witness :
    (Options.mk none (some 3)).minSize.getD 0 ≤ (("a", 5) : String × Nat).2 ∧
    accepted ⟨none, none⟩ ⟨1, false, ⟨some "a"⟩, false, none, some 0⟩ =
      some ("a", 0) :=
  ⟨claim_C5_min_size.1 ⟨none, some 3⟩
      [some ⟨1, false, ⟨some "a"⟩, false, none, some 5⟩] ("a", 5) (by decide),
   claim_C5_min_size.2.2 ⟨none, none⟩ ⟨1, false, ⟨some "a"⟩, false, none, some 0⟩
      "a" 0 rfl rfl rfl rfl⟩

/-- C8: a symlink leaf whose target path was read successfully is
recorded under the target path with the size from the entry metadata
(the target metadata, since links are followed); when reading the link
target fails, the entry is recorded under its original path instead. -/
theorem claim_C8_symlink :
    (∀ (opt : Options) (st : AggState) (e : DirEntry) (tgt : RawPath)
        (k : String) (v : Nat),
      e.isDir = false → e.isSymlink = true → e.readLink = some tgt →
      tgt.text = some k → e.metadata = some v → opt.minSize.getD 0 ≤ v →
      processEntry opt st e = ⟨st.total + v, hmInsert st.entries k v⟩) ∧
    (∀ (opt : Options) (st : AggState) (e : DirEntry) (k : String) (v : Nat),
      e.isDir = false → e.isSymlink = true → e.readLink = none →
      e.path.text = some k → e.metadata = some v → opt.minSize.getD 0 ≤ v →
      processEntry opt st e = ⟨st.total + v, hmInsert st.entries k v⟩) := by
  constructor
  · intro opt st e tgt k v hdir hsym hrl htext hmeta hmin
    have hres : (resolvePath e).text = some k := by
      simp [resolvePath, hsym, hrl, htext]
    simp [processEntry, hdir, hres, hmeta, Nat.not_lt.2 hmin]
  · intro opt st e k v hdir hsym hrl htext hmeta hmin
    have hres : (resolvePath e).text = some k := by
      simp [resolvePath, hsym, hrl, htext]
    simp [processEntry, hdir, hres, hmeta, Nat.not_lt.2 hmin]

/-- C8 witness: concrete symlink entries, one resolved to its target and
one with a failed target read recorded under the link path. -/
theorem claim_C8_witness :
    processEntry ⟨none, none⟩ initState
        ⟨1, false, ⟨some "link"⟩, true, some ⟨some "target"⟩, some 10⟩ =
      ⟨10, [("target", 10)]⟩ ∧
    processEntry ⟨none, none⟩ initState
        ⟨1, false, ⟨some "link"⟩, true, none, some 10⟩ =
      ⟨10, [("link", 10)]⟩ :=
  ⟨claim_C8_symlink.1 ⟨none, none⟩ initState
      ⟨1, false, ⟨some "link"⟩, true, some ⟨some "target"⟩, some 10⟩
      ⟨some "target"⟩ "target" 10 rfl rfl rfl rfl rfl (Nat.zero_le 10),
   claim_C8_symlink.2 ⟨none, none⟩ initState
      ⟨1, false, ⟨some "link"⟩, true, none, some 10⟩
      "link" 10 rfl rfl rfl rfl rfl (Nat.zero_le 10)⟩
/-- C2 counterexample: at total 0 the percentage cell is not the claimed
fallback "0.00%" (IEEE-754 division yields NaN, formatted "NaN%"). -/
theorem claim_C2_counterexample : percentage 0 0 ≠ "0.00%" := by
  decide

/-- C2 (amended): percentage(50,200) is "25.00%"; for positive totals
the cell renders the exact value (part/total)·100 rounded to the nearest
hundredth with exactly two decimal digits and a trailing percent sign;
at total 0 the code does not panic or propagate a division error, but
instead of the fallback "0.00%" it renders "NaN%" when part is 0 and
"inf%" when part is positive. -/
theorem claim_C2_percentage :
    percentage 50 200 = "25.00%" ∧
    percentage 0 0 = "NaN%" ∧
    (∀ part : Nat, 0 < part → percentage part 0 = "inf%") ∧
    (∀ part total : Nat, 0 < total →
      percentage part total = formatFixed2 (part * 100) total ++ "%" ∧
      (∃ s t : String,
        percentage part total = s ++ "." ++ t ++ "%" ∧ t.length = 2 ∧
        t.toList.all Char.isDigit = true) ∧
      (round2 (part * 100) total : ℤ) =
        ⌊(part : ℚ) / (total : ℚ) * 100 * 100 + 1 / 2⌋) := by
  refine ⟨by decide, by decide, ?_, ?_⟩
  · intro part hpos
    unfold percentage
    rw [if_pos rfl, if_neg (Nat.pos_iff_ne_zero.mp hpos)]
    rfl
  · intro part total hpos
    have hne : total ≠ 0 := Nat.pos_iff_ne_zero.mp hpos
    have hval : percentage part total = formatFixed2 (part * 100) total ++ "%" := by
      unfold percentage
      rw [if_neg hne]
    refine ⟨hval, ?_, ?_⟩
    · obtain ⟨s, t, heq, hlen, hdig⟩ := formatFixed2_shape (part * 100) total
      exact ⟨s, t, by rw [hval, heq], hlen, hdig⟩
    · rw [round2_eq_floor (part * 100) total hpos]
      congr 1
      push_cast
      ring

/-- C2 witness: concrete positive-part-over-zero and positive-total
instances of the amended statement. -/
theorem claim_C2_witness :
    percentage 5 0 = "inf%" ∧
    percentage 1 3 = formatFixed2 (1 * 100) 3 ++ "%" :=
  ⟨claim_C2_percentage.2.2.1 5 (by decide),
   (claim_C2_percentage.2.2.2 1 3 (by decide)).1⟩

/-- C6: humanize renders 999 as "999 B", 1000 as "1.00 kB" and 1500000
as "1.50 MB"; every count below 1000 renders as the integer count with
unit B; every count at or above 1000 renders the exact quotient by
1000^(i+1) — the appropriate decimal magnitude — rounded to the nearest
hundredth with exactly two decimal digits, followed by the i-th decimal
prefix and B. -/
theorem claim_C6_humanize :
    humanize 999 = "999 B" ∧
    humanize 1000 = "1.00 kB" ∧
    humanize 1500000 = "1.50 MB" ∧
    (∀ b : Nat, b < 1000 → humanize b = toString b ++ " B") ∧
    (∀ b : Nat, 1000 ≤ b →
      ∃ i, ∃ h : i < unitPrefixes.length,
        humanize b = formatFixed2 b (1000 ^ (i + 1)) ++ " " ++
          unitPrefixes.get ⟨i, h⟩ ++ "B" ∧
        1000 ^ (i + 1) ≤ b ∧
        (b < 1000 ^ (i + 2) ∨ i + 1 = unitPrefixes.length) ∧
        (round2 b (1000 ^ (i + 1)) : ℤ) =
          ⌊(b : ℚ) / ((1000 ^ (i + 1) : ℕ) : ℚ) * 100 + 1 / 2⌋) ∧
    (∀ num den : Nat, ∃ s t : String,
      formatFixed2 num den = s ++ "." ++ t ∧ t.length = 2 ∧
      t.toList.all Char.isDigit = true) := by
  refine ⟨by decide, by decide, by decide, ?_, ?_, formatFixed2_shape⟩
  · intro b hb
    unfold humanize
    rw [if_pos hb]
  · intro b hb
    obtain ⟨i, h, heq, hlb, hub⟩ :=
      humanizeLoop_spec unitPrefixes b 1 (by simp [unitPrefixes])
        (by decide) (by simpa using hb)
    refine ⟨i, h, ?_, by simpa using hlb, ?_, ?_⟩
    · unfold humanize
      rw [if_neg (Nat.not_lt.2 hb), heq]
      simp
    · rcases hub with hub | hub
      · exact Or.inl (by simpa using hub)
      · exact Or.inr hub
    · exact round2_eq_floor b (1000 ^ (i + 1)) (by positivity)

/-- C6 witness: concrete below-1000 and above-1000 instances of the
universal parts. -/
theorem claim_C6_witness :
    humanize 512 = toString 512 ++ " B" ∧
    (∃ i, ∃ h : i < unitPrefixes.length,
      humanize 2500 = formatFixed2 2500 (1000 ^ (i + 1)) ++ " " ++
        unitPrefixes.get ⟨i, h⟩ ++ "B" ∧
      1000 ^ (i + 1) ≤ 2500 ∧
      (2500 < 1000 ^ (i + 2) ∨ i + 1 = unitPrefixes.length) ∧
      (round2 2500 (1000 ^ (i + 1)) : ℤ) =
        ⌊(2500 : ℚ) / ((1000 ^ (i + 1) : ℕ) : ℚ) * 100 + 1 / 2⌋) :=
  ⟨claim_C6_humanize.2.2.2.1 512 (by decide),
   claim_C6_humanize.2.2.2.2.1 2500 (by decide)⟩

/-- C7: the sorted snapshot used by both the presenter and the exporter
is non-increasing by size between every pair of adjacent rows, and the
rendered row list follows exactly that order. -/
theorem claim_C7_sorted (m : List (String × Nat)) (st : AggState) :
    List.Chain' sizeDesc (sortDesc m) ∧
    renderRows st = (sortDesc st.entries).map (renderRow st.total) :=
  ⟨sortDesc_sorted m, rfl⟩

end Wbf
